import Mathlib

/-!
Shallow embedding of the batch gradient-descent kernel of
`src/gradient_descent/gradient_descent.ipynb`, with real arithmetic modelled
over `ℚ`.  The notebook's loop is

  for iteration in range(n_iterations):
      theta_ev.itemset((0,iteration), theta[0])
      theta_ev.itemset((1,iteration), theta[1])
      gradients = 2/N * Xb.T.dot(Xb.dot(theta) - y)
      theta = theta - gamma*gradients

wrapped here as the `run(X, y, theta0, gamma, n_iterations)` operation the
specification describes.  Vectors are lists of rationals, matrices are lists
of rows.  The trajectory `theta_ev` snapshots the whole parameter vector
(the notebook stores its two components; `p = 2` throughout the notebook).
-/

namespace GradientDescent

/-- Error taxonomy of the `run` contract. -/
inductive GDError where
  | dimensionMismatch
  | invalidArgument
  deriving DecidableEq

/-- Dot product of two equal-length vectors, `v.dot(w)` on 1-d arrays. -/
def dot (v w : List ℚ) : ℚ := (List.zipWith (fun a b => a * b) v w).sum

/-- Matrix–vector product `X.dot(v)`: one dot product per row. -/
def matVec (X : List (List ℚ)) (v : List ℚ) : List ℚ := X.map fun row => dot row v

/-- Entrywise vector subtraction. -/
def vSub (v w : List ℚ) : List ℚ := List.zipWith (fun a b => a - b) v w

/-- Scalar multiple of a vector, `c * v`. -/
def sMul (c : ℚ) (v : List ℚ) : List ℚ := v.map fun a => c * a

/-- Column `j` of a matrix. -/
def col (X : List (List ℚ)) (j : Nat) : List ℚ := X.map fun row => row.getD j 0

/-- Matrix transpose `X.T`.  Numpy arrays are rectangular, so reading the
column count off the first row agrees with `X.T` on every representable
input. -/
def transpose (X : List (List ℚ)) : List (List ℚ) :=
  (List.range (X.headD []).length).map fun j => col X j

/-- The notebook's `gradients = 2/N * Xb.T.dot(Xb.dot(theta) - y)`, with
`N` the number of rows of the design matrix. -/
def gradients (X : List (List ℚ)) (y θ : List ℚ) : List ℚ :=
  sMul (2 / (X.length : ℚ)) (matVec (transpose X) (vSub (matVec X θ) y))

/-- The notebook's update `theta = theta - gamma*gradients`. -/
def gdStep (X : List (List ℚ)) (y : List ℚ) (γ : ℚ) (θ : List ℚ) : List ℚ :=
  vSub θ (sMul γ (gradients X y θ))

/-- Exact shape compatibility: every row of `X` matches `θ` in length and
`X` has as many rows as `y` has entries.  This is the specification's
well-formedness condition on a call; numpy's own failure condition is
strictly weaker, because a single-entry `y` is broadcast instead of
raising (see `broadcasts` and `gdStepE`). -/
def dimsOk (X : List (List ℚ)) (y θ : List ℚ) : Bool :=
  (X.all fun row => row.length == θ.length) && (X.length == y.length)

/-- numpy broadcasting case of the loop body: when every row of `X`
matches `θ` in length but `y` has exactly one entry, the subtraction
`Xb.dot(theta) - y` broadcasts the single target against all N
predictions silently — shapes (N,1) − (1,1) — and the iteration
completes without any error. -/
def broadcasts (X : List (List ℚ)) (y θ : List ℚ) : Bool :=
  (X.all fun row => row.length == θ.length) && (y.length == 1)

/-- One evaluated update.  There is no eager validation in the source:
on exactly matching shapes the iteration computes the notebook value; when
`y` has a single entry it is broadcast, i.e. the value is the one obtained
with `y` materialised as `N` copies of its entry; in every remaining case
numpy raises its shape error at the first incompatible product of the
iteration (`Xb.dot(theta)` when a row mismatches `θ`, or the subtraction /
second dot when the target length fits neither `N` nor 1), modelled as
`dimensionMismatch`. -/
def gdStepE (X : List (List ℚ)) (y : List ℚ) (γ : ℚ) (θ : List ℚ) :
    Except GDError (List ℚ) :=
  if dimsOk X y θ then .ok (gdStep X y γ θ)
  else if broadcasts X y θ then
    .ok (gdStep X (List.replicate X.length (y.headD 0)) γ θ)
  else .error .dimensionMismatch

/-- The loop `for iteration in range(n_iterations)`: snapshot the current θ
into the trajectory, then update. -/
def loopE (X : List (List ℚ)) (y : List ℚ) (γ : ℚ) :
    Nat → List ℚ → Except GDError (List ℚ × List (List ℚ))
  | 0, θ => .ok (θ, [])
  | n + 1, θ =>
      match gdStepE X y γ θ with
      | .error e => .error e
      | .ok t =>
          match loopE X y γ n t with
          | .error e => .error e
          | .ok res => .ok (res.1, θ :: res.2)

/-- `run(X, y, theta0, gamma, n_iterations) -> (theta_final, trajectory)`.
A negative iteration count makes the trajectory preallocation
`np.ones((2, n_iterations))` fail with numpy's "negative dimensions are not
allowed" `ValueError` before the loop starts; that failure is modelled as
`invalidArgument`. -/
def run (X : List (List ℚ)) (y θ0 : List ℚ) (γ : ℚ) (nIterations : ℤ) :
    Except GDError (List ℚ × List (List ℚ)) :=
  if nIterations < 0 then .error .invalidArgument
  else loopE X y γ nIterations.toNat θ0

/-- The iterate sequence θ_k produced by repeated updates from θ0. -/
def thetaIter (X : List (List ℚ)) (y : List ℚ) (γ : ℚ) (θ0 : List ℚ) : Nat → List ℚ
  | 0 => θ0
  | k + 1 => gdStep X y γ (thetaIter X y γ θ0 k)

/-- Mean-squared error `(1/N)·‖Xθ − y‖²` of a parameter vector. -/
def mse (X : List (List ℚ)) (y θ : List ℚ) : ℚ :=
  (1 / (X.length : ℚ)) * dot (vSub (matVec X θ) y) (vSub (matVec X θ) y)

/-- Sum of the squares of all entries of a matrix (squared Frobenius norm). -/
def frobSq (X : List (List ℚ)) : ℚ :=
  (X.map fun row => (row.map fun a => a * a).sum).sum

/-- Reference update following the specification's closed-form words
`θ − γ·(2/N)·Xᵗ(Xθ−y)`, written independently of the source embedding with
explicit index-based sums: entry `j` of `Xᵗr` is `∑ i, X i j * r i` and
entry `i` of `Xθ` is `∑ l, X i l * θ l`. -/
def specGradStep (X : List (List ℚ)) (y θ : List ℚ) (γ : ℚ) : List ℚ :=
  (List.range θ.length).map fun j =>
    θ.getD j 0 -
      γ * (2 / (X.length : ℚ) *
        ∑ i ∈ Finset.range X.length,
          (X.getD i []).getD j 0 *
            ((∑ l ∈ Finset.range θ.length, (X.getD i []).getD l 0 * θ.getD l 0) -
              y.getD i 0))

/-- The mutable state of one notebook-cell execution: the arrays the loop
reads and writes.  `theta_ev` collects the snapshots appended so far. -/
structure GDState where
  Xb : List (List ℚ)
  y : List ℚ
  theta : List ℚ
  theta_ev : List (List ℚ)

/-- The body of `for iteration in range(n_iterations)`, statement by
statement: record `theta` into `theta_ev`, compute `gradients`, update
`theta`.  `Xb` and `y` are only read. -/
def iterBody (γ : ℚ) (s : GDState) : GDState :=
  let s1 : GDState := { s with theta_ev := s.theta_ev ++ [s.theta] }
  let g : List ℚ := gradients s1.Xb s1.y s1.theta
  { s1 with theta := vSub s1.theta (sMul γ g) }

theorem length_vSub (v w : List ℚ) : (vSub v w).length = min v.length w.length := by
  simp [vSub]

theorem length_sMul (c : ℚ) (v : List ℚ) : (sMul c v).length = v.length := by
  simp [sMul]

theorem length_matVec (X : List (List ℚ)) (v : List ℚ) : (matVec X v).length = X.length := by
  simp [matVec]

theorem length_col (X : List (List ℚ)) (j : Nat) : (col X j).length = X.length := by
  simp [col]

theorem length_transpose (X : List (List ℚ)) :
    (transpose X).length = (X.headD []).length := by
  simp [transpose]

theorem length_gradients (X : List (List ℚ)) (y θ : List ℚ) :
    (gradients X y θ).length = (X.headD []).length := by
  simp [gradients, length_sMul, length_matVec, length_transpose]

theorem dimsOk_iff {X : List (List ℚ)} {y θ : List ℚ} :
    dimsOk X y θ = true ↔
      (∀ row ∈ X, row.length = θ.length) ∧ X.length = y.length := by
  simp [dimsOk]

theorem headD_length_of_dimsOk {X : List (List ℚ)} {y θ : List ℚ}
    (h : dimsOk X y θ = true) (hX : X ≠ []) : (X.headD []).length = θ.length := by
  rcases X with _ | ⟨r, X'⟩
  · exact absurd rfl hX
  · exact (dimsOk_iff.mp h).1 r (List.mem_cons_self r X')

theorem length_gdStep {X : List (List ℚ)} {y θ : List ℚ} (γ : ℚ)
    (h : dimsOk X y θ = true) (hX : X ≠ []) : (gdStep X y γ θ).length = θ.length := by
  rw [gdStep, length_vSub, length_sMul, length_gradients,
    headD_length_of_dimsOk h hX, min_self]

theorem dimsOk_gdStep {X : List (List ℚ)} {y θ : List ℚ} (γ : ℚ)
    (h : dimsOk X y θ = true) : dimsOk X y (gdStep X y γ θ) = true := by
  rcases X with _ | ⟨r, X'⟩
  · simpa [dimsOk_iff] using (dimsOk_iff.mp h).2
  · have hlen := length_gdStep γ h (List.cons_ne_nil r X')
    rw [dimsOk_iff] at h ⊢
    exact ⟨fun row hr => (h.1 row hr).trans hlen.symm, h.2⟩

theorem thetaIter_zero (X : List (List ℚ)) (y : List ℚ) (γ : ℚ) (θ0 : List ℚ) :
    thetaIter X y γ θ0 0 = θ0 := rfl

theorem thetaIter_succ (X : List (List ℚ)) (y : List ℚ) (γ : ℚ) (θ0 : List ℚ) (k : Nat) :
    thetaIter X y γ θ0 (k + 1) = gdStep X y γ (thetaIter X y γ θ0 k) := rfl

theorem thetaIter_shift (X : List (List ℚ)) (y : List ℚ) (γ : ℚ) (θ0 : List ℚ) (k : Nat) :
    thetaIter X y γ (gdStep X y γ θ0) k = thetaIter X y γ θ0 (k + 1) := by
  induction k with
  | zero => rfl
  | succ k ih => rw [thetaIter_succ, ih]; rfl

theorem dimsOk_thetaIter {X : List (List ℚ)} {y θ0 : List ℚ} (γ : ℚ)
    (h : dimsOk X y θ0 = true) (k : Nat) :
    dimsOk X y (thetaIter X y γ θ0 k) = true := by
  induction k with
  | zero => exact h
  | succ k ih => rw [thetaIter_succ]; exact dimsOk_gdStep γ ih

theorem length_thetaIter {X : List (List ℚ)} {y θ0 : List ℚ} (γ : ℚ)
    (h : dimsOk X y θ0 = true) (hX : X ≠ []) (k : Nat) :
    (thetaIter X y γ θ0 k).length = θ0.length := by
  induction k with
  | zero => rfl
  | succ k ih =>
      rw [thetaIter_succ, length_gdStep γ (dimsOk_thetaIter γ h k) hX]
      exact ih

/-- Master lemma: on shape-compatible inputs the loop succeeds, the
trajectory lists the iterates θ_0 … θ_{n-1} in order, and the returned
parameters are the n-th iterate. -/
theorem loopE_eq_iter (X : List (List ℚ)) (y : List ℚ) (γ : ℚ) :
    ∀ (n : Nat) (θ0 : List ℚ), dimsOk X y θ0 = true →
      loopE X y γ n θ0 =
        .ok (thetaIter X y γ θ0 n, (List.range n).map (thetaIter X y γ θ0)) := by
  intro n
  induction n with
  | zero => intro θ0 _; simp [loopE, thetaIter_zero]
  | succ n ih =>
      intro θ0 h
      have hstep : gdStepE X y γ θ0 = .ok (gdStep X y γ θ0) := by
        simp [gdStepE, h]
      have hnext := ih (gdStep X y γ θ0) (dimsOk_gdStep γ h)
      simp only [loopE, hstep, hnext]
      rw [thetaIter_shift, List.range_succ_eq_map, List.map_cons, List.map_map]
      have hfun : thetaIter X y γ θ0 ∘ Nat.succ = thetaIter X y γ (gdStep X y γ θ0) :=
        funext fun k => (thetaIter_shift X y γ θ0 k).symm
      rw [hfun, thetaIter_zero]

theorem run_eq_iter {X : List (List ℚ)} {y θ0 : List ℚ} {γ : ℚ} {n : ℤ}
    (h : dimsOk X y θ0 = true) (hn : 0 ≤ n) :
    run X y θ0 γ n =
      .ok (thetaIter X y γ θ0 n.toNat,
        (List.range n.toNat).map (thetaIter X y γ θ0)) := by
  rw [run, if_neg (not_lt.mpr hn)]
  exact loopE_eq_iter X y γ n.toNat θ0 h

theorem getD_mem_of_lt {l : List (List ℚ)} {i : Nat} (h : i < l.length) :
    l.getD i [] ∈ l := by
  rw [List.getD_eq_getElem _ _ h]; exact List.getElem_mem h

theorem getD_map_zero (f : ℚ → ℚ) (v : List ℚ) {j : Nat} (hj : j < v.length) :
    (v.map f).getD j 0 = f (v.getD j 0) := by
  rw [List.getD_eq_getElem _ _ (by simpa using hj), List.getElem_map,
    List.getD_eq_getElem _ _ hj]

theorem getD_sMul (c : ℚ) (v : List ℚ) {j : Nat} (hj : j < v.length) :
    (sMul c v).getD j 0 = c * v.getD j 0 := getD_map_zero _ v hj

theorem getD_matVec (X : List (List ℚ)) (v : List ℚ) {i : Nat} (hi : i < X.length) :
    (matVec X v).getD i 0 = dot (X.getD i []) v := by
  rw [matVec, List.getD_eq_getElem _ _ (by simpa using hi), List.getElem_map,
    List.getD_eq_getElem _ _ hi]

theorem getD_col (X : List (List ℚ)) (j : Nat) {i : Nat} (hi : i < X.length) :
    (col X j).getD i 0 = (X.getD i []).getD j 0 := by
  rw [col, List.getD_eq_getElem _ _ (by simpa using hi), List.getElem_map,
    List.getD_eq_getElem _ _ hi]

theorem getD_transpose (X : List (List ℚ)) {j : Nat} (hj : j < (X.headD []).length) :
    (transpose X).getD j [] = col X j := by
  rw [transpose, List.getD_eq_getElem _ _ (by simpa using hj), List.getElem_map,
    List.getElem_range]

theorem getD_vSub (v w : List ℚ) {i : Nat} (hv : i < v.length) (hw : i < w.length) :
    (vSub v w).getD i 0 = v.getD i 0 - w.getD i 0 := by
  have hz : i < (List.zipWith (fun a b => a - b) v w).length := by
    rw [List.length_zipWith]; omega
  rw [vSub, List.getD_eq_getElem _ _ hz, List.getElem_zipWith,
    List.getD_eq_getElem _ _ hv, List.getD_eq_getElem _ _ hw]

theorem dot_eq_sum (v : List ℚ) : ∀ (w : List ℚ), w.length = v.length →
    dot v w = ∑ i ∈ Finset.range v.length, v.getD i 0 * w.getD i 0 := by
  induction v with
  | nil => intro w _; simp [dot]
  | cons a v ih =>
      intro w h
      cases w with
      | nil => simp at h
      | cons b w =>
          have h' : w.length = v.length := by simpa using h
          have hd : dot (a :: v) (b :: w) = a * b + dot v w := by simp [dot]
          rw [hd, ih w h', List.length_cons, Finset.sum_range_succ']
          simp only [List.getD_cons_succ, List.getD_cons_zero]
          ring

/-- Entry `j` of the notebook's `gradients` is the spec's closed-form
partial derivative `(2/N)·∑ i, X i j·(⟨X i, θ⟩ − y i)`. -/
theorem getD_gradients {X : List (List ℚ)} {y θ : List ℚ}
    (h : dimsOk X y θ = true) (hX : X ≠ []) {j : Nat} (hj : j < θ.length) :
    (gradients X y θ).getD j 0 =
      2 / (X.length : ℚ) *
        ∑ i ∈ Finset.range X.length,
          (X.getD i []).getD j 0 * (dot (X.getD i []) θ - y.getD i 0) := by
  have hhd := headD_length_of_dimsOk h hX
  have hjh : j < (X.headD []).length := by omega
  have hmt : j < (matVec (transpose X) (vSub (matVec X θ) y)).length := by
    rw [length_matVec, length_transpose]; exact hjh
  have hylen : X.length = y.length := (dimsOk_iff.mp h).2
  have hrlen : (vSub (matVec X θ) y).length = (col X j).length := by
    rw [length_vSub, length_matVec, length_col, ← hylen, min_self]
  rw [gradients, getD_sMul _ _ hmt, getD_matVec _ _ (by rwa [length_transpose]),
    getD_transpose _ hjh, dot_eq_sum _ _ hrlen, length_col]
  congr 1
  refine Finset.sum_congr rfl fun i hi => ?_
  have hi' : i < X.length := Finset.mem_range.mp hi
  rw [getD_col _ _ hi', getD_vSub _ _ (by rwa [length_matVec]) (by omega),
    getD_matVec _ _ hi']

/-- Entry `j` of one notebook update. -/
theorem getD_gdStep {X : List (List ℚ)} {y θ : List ℚ} (γ : ℚ)
    (h : dimsOk X y θ = true) (hX : X ≠ []) {j : Nat} (hj : j < θ.length) :
    (gdStep X y γ θ).getD j 0 = θ.getD j 0 - γ * (gradients X y θ).getD j 0 := by
  have hg : j < (gradients X y θ).length := by
    rw [length_gradients, headD_length_of_dimsOk h hX]; exact hj
  rw [gdStep, getD_vSub _ _ hj (by rwa [length_sMul]), getD_sMul _ _ hg]

theorem getD_specGradStep (X : List (List ℚ)) (y θ : List ℚ) (γ : ℚ) {j : Nat}
    (hj : j < θ.length) :
    (specGradStep X y θ γ).getD j 0 =
      θ.getD j 0 -
        γ * (2 / (X.length : ℚ) *
          ∑ i ∈ Finset.range X.length,
            (X.getD i []).getD j 0 *
              ((∑ l ∈ Finset.range θ.length, (X.getD i []).getD l 0 * θ.getD l 0) -
                y.getD i 0)) := by
  rw [specGradStep, List.getD_eq_getElem _ _ (by simpa using hj), List.getElem_map,
    List.getElem_range]

/-- The notebook's update coincides with the specification's reference
formula on every shape-compatible input with at least one sample. -/
theorem gdStep_eq_specGradStep {X : List (List ℚ)} {y θ : List ℚ} (γ : ℚ)
    (h : dimsOk X y θ = true) (hX : X ≠ []) :
    gdStep X y γ θ = specGradStep X y θ γ := by
  have hlen : (gdStep X y γ θ).length = (specGradStep X y θ γ).length := by
    rw [length_gdStep γ h hX, specGradStep, List.length_map, List.length_range]
  refine List.ext_getElem hlen fun j hj1 hj2 => ?_
  have hjθ : j < θ.length := by
    have := hj1; rwa [length_gdStep γ h hX] at this
  have hrows := (dimsOk_iff.mp h).1
  rw [← List.getD_eq_getElem _ 0 hj1, ← List.getD_eq_getElem _ 0 hj2,
    getD_gdStep γ h hX hjθ, getD_gradients h hX hjθ, getD_specGradStep X y θ γ hjθ]
  have hsum : ∀ i ∈ Finset.range X.length,
      (X.getD i []).getD j 0 * (dot (X.getD i []) θ - y.getD i 0) =
        (X.getD i []).getD j 0 *
          ((∑ l ∈ Finset.range θ.length, (X.getD i []).getD l 0 * θ.getD l 0) -
            y.getD i 0) := by
    intro i hi
    have hi' : i < X.length := Finset.mem_range.mp hi
    have hrow : (X.getD i []).length = θ.length := hrows _ (getD_mem_of_lt hi')
    rw [dot_eq_sum _ _ (by omega), hrow]
  rw [Finset.sum_congr rfl hsum]

theorem sum_map_eq_sum_getD (g : List ℚ → ℚ) (X : List (List ℚ)) :
    (X.map g).sum = ∑ i ∈ Finset.range X.length, g (X.getD i []) := by
  induction X with
  | nil => simp
  | cons r X ih =>
      rw [List.map_cons, List.sum_cons, ih, List.length_cons, Finset.sum_range_succ']
      simp only [List.getD_cons_succ, List.getD_cons_zero]
      ring

theorem sumSq_eq_sum (v : List ℚ) :
    (v.map fun a => a * a).sum = ∑ j ∈ Finset.range v.length, v.getD j 0 ^ 2 := by
  induction v with
  | nil => simp
  | cons a v ih =>
      rw [List.map_cons, List.sum_cons, ih, List.length_cons, Finset.sum_range_succ']
      simp only [List.getD_cons_succ, List.getD_cons_zero]
      ring

/-- The squared Frobenius norm as a double index sum, on shape-compatible
inputs. -/
theorem frobSq_eq_sum {X : List (List ℚ)} {y θ : List ℚ} (h : dimsOk X y θ = true) :
    frobSq X =
      ∑ i ∈ Finset.range X.length,
        ∑ j ∈ Finset.range θ.length, (X.getD i []).getD j 0 ^ 2 := by
  rw [frobSq, sum_map_eq_sum_getD]
  refine Finset.sum_congr rfl fun i hi => ?_
  have hi' : i < X.length := Finset.mem_range.mp hi
  have hrow : (X.getD i []).length = θ.length :=
    (dimsOk_iff.mp h).1 _ (getD_mem_of_lt hi')
  rw [sumSq_eq_sum, hrow]

/-- The mean-squared error as an index sum over the residuals. -/
theorem mse_eq_sum {X : List (List ℚ)} {y θ : List ℚ} (h : dimsOk X y θ = true) :
    mse X y θ =
      1 / (X.length : ℚ) *
        ∑ i ∈ Finset.range X.length, (dot (X.getD i []) θ - y.getD i 0) ^ 2 := by
  have hylen : X.length = y.length := (dimsOk_iff.mp h).2
  have hrlen : (vSub (matVec X θ) y).length = X.length := by
    rw [length_vSub, length_matVec, ← hylen, min_self]
  rw [mse, dot_eq_sum _ _ (by rw [hrlen]), hrlen]
  congr 1
  refine Finset.sum_congr rfl fun i hi => ?_
  have hi' : i < X.length := Finset.mem_range.mp hi
  rw [getD_vSub _ _ (by rwa [length_matVec]) (by omega), getD_matVec _ _ hi']
  ring

/-- Residual of row `i` after one update: the old residual minus
`γ` times row `i` of `X` applied to the gradient. -/
theorem residual_gdStep {X : List (List ℚ)} {y θ : List ℚ} (γ : ℚ)
    (h : dimsOk X y θ = true) (hX : X ≠ []) {i : Nat} (hi : i < X.length) :
    dot (X.getD i []) (gdStep X y γ θ) - y.getD i 0 =
      (dot (X.getD i []) θ - y.getD i 0) -
        γ * ∑ j ∈ Finset.range θ.length,
          (X.getD i []).getD j 0 * (gradients X y θ).getD j 0 := by
  have hrow : (X.getD i []).length = θ.length :=
    (dimsOk_iff.mp h).1 _ (getD_mem_of_lt hi)
  have hstep : (gdStep X y γ θ).length = θ.length := length_gdStep γ h hX
  rw [dot_eq_sum _ _ (by omega), dot_eq_sum _ _ (by omega), hrow]
  have hterm : ∀ j ∈ Finset.range θ.length,
      (X.getD i []).getD j 0 * (gdStep X y γ θ).getD j 0 =
        (X.getD i []).getD j 0 * θ.getD j 0 -
          γ * ((X.getD i []).getD j 0 * (gradients X y θ).getD j 0) := by
    intro j hj
    rw [getD_gdStep γ h hX (Finset.mem_range.mp hj)]
    ring
  rw [Finset.sum_congr rfl hterm, Finset.sum_sub_distrib, ← Finset.mul_sum]
  ring

/-- Normal-equation form of the gradient entries:
`∑ i, X i j · r i = (N/2) · g j`. -/
theorem grad_normal {X : List (List ℚ)} {y θ : List ℚ}
    (h : dimsOk X y θ = true) (hX : X ≠ []) {j : Nat} (hj : j < θ.length) :
    ∑ i ∈ Finset.range X.length,
        (X.getD i []).getD j 0 * (dot (X.getD i []) θ - y.getD i 0) =
      (X.length : ℚ) / 2 * (gradients X y θ).getD j 0 := by
  have hN : (X.length : ℚ) ≠ 0 := by
    have : X.length ≠ 0 := fun hc => hX (List.length_eq_zero.mp hc)
    exact_mod_cast this
  rw [getD_gradients h hX hj]
  field_simp
  ring

theorem descent_aux {N F SR SG SA γ : ℚ} (hN : 0 < N) (hγ0 : 0 ≤ γ)
    (hγF : γ * F ≤ N) (hSG : 0 ≤ SG) (hSA : SA ≤ F * SG) :
    1 / N * (SR - 2 * γ * (N / 2 * SG) + γ ^ 2 * SA) ≤ 1 / N * SR := by
  have hkey : γ ^ 2 * SA ≤ N * (γ * SG) := by
    calc γ ^ 2 * SA ≤ γ ^ 2 * (F * SG) := mul_le_mul_of_nonneg_left hSA (sq_nonneg γ)
      _ = (γ * F) * (γ * SG) := by ring
      _ ≤ N * (γ * SG) := mul_le_mul_of_nonneg_right hγF (mul_nonneg hγ0 hSG)
  have hinner : SR - 2 * γ * (N / 2 * SG) + γ ^ 2 * SA ≤ SR := by nlinarith [hkey]
  exact mul_le_mul_of_nonneg_left hinner (by positivity)

/-- One-step descent: when `0 ≤ γ` and `γ·‖X‖_F² ≤ N`, a notebook update
does not increase the mean-squared error. -/
theorem mse_gdStep_le {X : List (List ℚ)} {y θ : List ℚ} {γ : ℚ}
    (h : dimsOk X y θ = true) (hX : X ≠ []) (hγ0 : 0 ≤ γ)
    (hγ : γ * frobSq X ≤ (X.length : ℚ)) :
    mse X y (gdStep X y γ θ) ≤ mse X y θ := by
  have hN0 : (0 : ℚ) < (X.length : ℚ) := by
    have : 0 < X.length := List.length_pos.mpr hX
    exact_mod_cast this
  have hd' : dimsOk X y (gdStep X y γ θ) = true := dimsOk_gdStep γ h
  have hSG : (0 : ℚ) ≤ ∑ j ∈ Finset.range θ.length, (gradients X y θ).getD j 0 ^ 2 :=
    Finset.sum_nonneg fun j _ => sq_nonneg _
  have hCS : ∑ i ∈ Finset.range X.length,
      (∑ j ∈ Finset.range θ.length,
        (X.getD i []).getD j 0 * (gradients X y θ).getD j 0) ^ 2 ≤
      frobSq X * ∑ j ∈ Finset.range θ.length, (gradients X y θ).getD j 0 ^ 2 := by
    have per : ∀ i ∈ Finset.range X.length,
        (∑ j ∈ Finset.range θ.length,
          (X.getD i []).getD j 0 * (gradients X y θ).getD j 0) ^ 2 ≤
        (∑ j ∈ Finset.range θ.length, (X.getD i []).getD j 0 ^ 2) *
          ∑ j ∈ Finset.range θ.length, (gradients X y θ).getD j 0 ^ 2 :=
      fun i _ => Finset.sum_mul_sq_le_sq_mul_sq _ _ _
    calc ∑ i ∈ Finset.range X.length,
          (∑ j ∈ Finset.range θ.length,
            (X.getD i []).getD j 0 * (gradients X y θ).getD j 0) ^ 2
        ≤ ∑ i ∈ Finset.range X.length,
            ((∑ j ∈ Finset.range θ.length, (X.getD i []).getD j 0 ^ 2) *
              ∑ j ∈ Finset.range θ.length, (gradients X y θ).getD j 0 ^ 2) :=
          Finset.sum_le_sum per
      _ = (∑ i ∈ Finset.range X.length,
            ∑ j ∈ Finset.range θ.length, (X.getD i []).getD j 0 ^ 2) *
            ∑ j ∈ Finset.range θ.length, (gradients X y θ).getD j 0 ^ 2 :=
          (Finset.sum_mul _ _ _).symm
      _ = frobSq X * ∑ j ∈ Finset.range θ.length, (gradients X y θ).getD j 0 ^ 2 := by
          rw [frobSq_eq_sum h]
  have hkey : ∀ i ∈ Finset.range X.length,
      (dot (X.getD i []) (gdStep X y γ θ) - y.getD i 0) ^ 2 =
        (dot (X.getD i []) θ - y.getD i 0) ^ 2 -
          2 * γ * ((dot (X.getD i []) θ - y.getD i 0) *
            ∑ j ∈ Finset.range θ.length,
              (X.getD i []).getD j 0 * (gradients X y θ).getD j 0) +
          γ ^ 2 * (∑ j ∈ Finset.range θ.length,
            (X.getD i []).getD j 0 * (gradients X y θ).getD j 0) ^ 2 := by
    intro i hi
    rw [residual_gdStep γ h hX (Finset.mem_range.mp hi)]
    ring
  have hRA : ∑ i ∈ Finset.range X.length,
      ((dot (X.getD i []) θ - y.getD i 0) *
        ∑ j ∈ Finset.range θ.length,
          (X.getD i []).getD j 0 * (gradients X y θ).getD j 0) =
      (X.length : ℚ) / 2 *
        ∑ j ∈ Finset.range θ.length, (gradients X y θ).getD j 0 ^ 2 := by
    calc ∑ i ∈ Finset.range X.length,
          ((dot (X.getD i []) θ - y.getD i 0) *
            ∑ j ∈ Finset.range θ.length,
              (X.getD i []).getD j 0 * (gradients X y θ).getD j 0)
        = ∑ i ∈ Finset.range X.length, ∑ j ∈ Finset.range θ.length,
            (dot (X.getD i []) θ - y.getD i 0) *
              ((X.getD i []).getD j 0 * (gradients X y θ).getD j 0) := by
          refine Finset.sum_congr rfl fun i _ => ?_
          rw [Finset.mul_sum]
      _ = ∑ j ∈ Finset.range θ.length, ∑ i ∈ Finset.range X.length,
            (dot (X.getD i []) θ - y.getD i 0) *
              ((X.getD i []).getD j 0 * (gradients X y θ).getD j 0) :=
          Finset.sum_comm
      _ = ∑ j ∈ Finset.range θ.length,
            ((X.length : ℚ) / 2 * (gradients X y θ).getD j 0) *
              (gradients X y θ).getD j 0 := by
          refine Finset.sum_congr rfl fun j hj => ?_
          have hswap : ∑ i ∈ Finset.range X.length,
              (dot (X.getD i []) θ - y.getD i 0) *
                ((X.getD i []).getD j 0 * (gradients X y θ).getD j 0) =
              (∑ i ∈ Finset.range X.length,
                (X.getD i []).getD j 0 * (dot (X.getD i []) θ - y.getD i 0)) *
                (gradients X y θ).getD j 0 := by
            rw [Finset.sum_mul]
            exact Finset.sum_congr rfl fun i _ => by ring
          rw [hswap, grad_normal h hX (Finset.mem_range.mp hj)]
      _ = (X.length : ℚ) / 2 *
            ∑ j ∈ Finset.range θ.length, (gradients X y θ).getD j 0 ^ 2 := by
          rw [Finset.mul_sum]
          exact Finset.sum_congr rfl fun j _ => by ring
  rw [mse_eq_sum hd', mse_eq_sum h, Finset.sum_congr rfl hkey,
    Finset.sum_add_distrib, Finset.sum_sub_distrib, ← Finset.mul_sum, ← Finset.mul_sum, hRA]
  exact descent_aux hN0 hγ0 hγ hSG hCS

theorem getD_map_range (f : Nat → List ℚ) {m k : Nat} (hk : k < m) :
    ((List.range m).map f).getD k [] = f k := by
  rw [List.getD_eq_getElem _ _ (by simpa using hk), List.getElem_map, List.getElem_range]

/-- With `n_iterations = 0` the loop body never executes: `run` returns the
initial parameters and an empty trajectory, whatever the shapes are. -/
theorem run_zero (X : List (List ℚ)) (y θ0 : List ℚ) (γ : ℚ) :
    run X y θ0 γ 0 = .ok (θ0, []) := by
  simp [run, loopE]

/-- With shapes that neither match exactly nor broadcast, the first
evaluated product of the first iteration fails. -/
theorem loopE_mismatch {X : List (List ℚ)} {y θ0 : List ℚ} (γ : ℚ) (m : Nat)
    (h : dimsOk X y θ0 = false) (hb : broadcasts X y θ0 = false) :
    loopE X y γ (m + 1) θ0 = .error .dimensionMismatch := by
  simp [loopE, gdStepE, h, hb]

/-- One update (against any target vector of the right row count, in
particular a broadcast one) preserves "every row of `X` matches `θ`". -/
theorem rowsMatch_gdStep {X : List (List ℚ)} {yb θ : List ℚ} (γ : ℚ)
    (hrows : (X.all fun row => row.length == θ.length) = true)
    (hyb : yb.length = X.length) :
    (X.all fun row => row.length == (gdStep X yb γ θ).length) = true := by
  rcases X with _ | ⟨r, X'⟩
  · rfl
  · have hlen' : (r :: X').length = yb.length := hyb.symm
    have hd : dimsOk (r :: X') yb θ = true := by
      simp [dimsOk, hrows, hlen']
    have hlen := length_gdStep γ hd (List.cons_ne_nil r X')
    simp only [hlen]
    exact hrows

/-- In the broadcast case the loop never fails: numpy silently reuses the
single target entry at every iteration. -/
theorem loopE_broadcast_ok {X : List (List ℚ)} {y : List ℚ} (γ : ℚ) :
    ∀ (m : Nat) (θ0 : List ℚ),
      (X.all fun row => row.length == θ0.length) = true → y.length = 1 →
      ∃ tf tr, loopE X y γ m θ0 = .ok (tf, tr) := by
  intro m
  induction m with
  | zero => intro θ0 _ _; exact ⟨θ0, [], rfl⟩
  | succ m ih =>
      intro θ0 hrows hy
      cases hdim : dimsOk X y θ0 with
      | true =>
          have hstep : gdStepE X y γ θ0 = .ok (gdStep X y γ θ0) := by
            simp [gdStepE, hdim]
          have hrows' : (X.all fun row => row.length == (gdStep X y γ θ0).length) = true :=
            rowsMatch_gdStep γ hrows (dimsOk_iff.mp hdim).2.symm
          obtain ⟨tf, tr, hloop⟩ := ih (gdStep X y γ θ0) hrows' hy
          exact ⟨tf, θ0 :: tr, by simp only [loopE, hstep, hloop]⟩
      | false =>
          have hb : broadcasts X y θ0 = true := by
            simp [broadcasts, hrows, hy]
          have hstep : gdStepE X y γ θ0 =
              .ok (gdStep X (List.replicate X.length (y.headD 0)) γ θ0) := by
            simp [gdStepE, hdim, hb]
          have hrows' : (X.all fun row =>
              row.length == (gdStep X (List.replicate X.length (y.headD 0)) γ θ0).length)
                = true :=
            rowsMatch_gdStep γ hrows (by simp)
          obtain ⟨tf, tr, hloop⟩ :=
            ih (gdStep X (List.replicate X.length (y.headD 0)) γ θ0) hrows' hy
          exact ⟨tf, θ0 :: tr, by simp only [loopE, hstep, hloop]⟩

/-- A zero step size leaves the parameters exactly unchanged. -/
theorem gdStep_zero_gamma {X : List (List ℚ)} {y θ : List ℚ}
    (h : dimsOk X y θ = true) (hX : X ≠ []) : gdStep X y 0 θ = θ := by
  refine List.ext_getElem (length_gdStep 0 h hX) fun j hj1 hj2 => ?_
  have hjθ : j < θ.length := by rwa [length_gdStep 0 h hX] at hj1
  rw [← List.getD_eq_getElem _ 0 hj1, ← List.getD_eq_getElem _ 0 hj2,
    getD_gdStep 0 h hX hjθ]
  ring

theorem thetaIter_zero_gamma {X : List (List ℚ)} {y θ0 : List ℚ}
    (h : dimsOk X y θ0 = true) (hX : X ≠ []) (k : Nat) :
    thetaIter X y 0 θ0 k = θ0 := by
  induction k with
  | zero => rfl
  | succ k ih =>
      rw [thetaIter_succ, ih, gdStep_zero_gamma h hX]

theorem map_range_eq_replicate {f : Nat → List ℚ} {c : List ℚ} (m : Nat)
    (hf : ∀ k, k < m → f k = c) :
    (List.range m).map f = List.replicate m c := by
  refine List.ext_getElem (by simp) fun k hk1 hk2 => ?_
  have hk : k < m := by simpa using hk1
  rw [List.getElem_map, List.getElem_range, List.getElem_replicate]
  exact hf k hk

/-- `run` never fails on nonnegative iteration counts and compatible shapes;
the success case of `run` forces `0 ≤ n`. -/
theorem run_ok_nonneg {X : List (List ℚ)} {y θ0 : List ℚ} {γ : ℚ} {n : ℤ}
    {tf : List ℚ} {tr : List (List ℚ)}
    (hrun : run X y θ0 γ n = .ok (tf, tr)) : 0 ≤ n := by
  by_contra hneg
  rw [run, if_pos (not_le.mp hneg)] at hrun
  exact Except.noConfusion hrun

/-- Unpacked form of a successful run on compatible shapes. -/
theorem run_ok_dest {X : List (List ℚ)} {y θ0 : List ℚ} {γ : ℚ} {n : ℤ}
    {tf : List ℚ} {tr : List (List ℚ)}
    (h : dimsOk X y θ0 = true)
    (hrun : run X y θ0 γ n = .ok (tf, tr)) :
    tf = thetaIter X y γ θ0 n.toNat ∧
      tr = (List.range n.toNat).map (thetaIter X y γ θ0) := by
  have hn : 0 ≤ n := run_ok_nonneg hrun
  rw [run_eq_iter h hn] at hrun
  have := Except.ok.inj hrun
  exact ⟨congrArg Prod.fst this.symm, congrArg Prod.snd this.symm⟩

/-- C1: every iteration of `run` updates the parameters by exactly the
closed-form MSE gradient step θ_{k+1} = θ_k − γ·(2/N)·Xᵗ(Xθ_k − y), stated
through the independent reference definition `specGradStep`; in particular
one iteration on X = [[1,0],[1,1],[1,2]], y = [1,2,3], theta0 = [0,0],
γ = 1/10 returns exactly the reference value. -/
theorem claim_C1_gradient_step {X : List (List ℚ)} {y θ0 : List ℚ} {γ : ℚ} {n : ℤ}
    {tf : List ℚ} {tr : List (List ℚ)}
    (h : dimsOk X y θ0 = true) (hX : X ≠ [])
    (hrun : run X y θ0 γ n = .ok (tf, tr)) :
    (∀ k : Nat, k + 1 < tr.length →
      tr.getD (k + 1) [] = specGradStep X y (tr.getD k []) γ) ∧
    run [[1,0],[1,1],[1,2]] [1,2,3] [0,0] (1/10) 1 =
      .ok (specGradStep [[1,0],[1,1],[1,2]] [1,2,3] [0,0] (1/10), [[0,0]]) := by
  obtain ⟨htf, htr⟩ := run_ok_dest h hrun
  constructor
  · subst htr
    intro k hk
    have hlen : k + 1 < n.toNat := by simpa using hk
    rw [getD_map_range _ hlen, getD_map_range _ (by omega),
      ← gdStep_eq_specGradStep γ (dimsOk_thetaIter γ h k) hX]
    exact thetaIter_succ X y γ θ0 k
  · have hspec : specGradStep [[1,0],[1,1],[1,2]] [1,2,3] [0,0] (1/10) = [2/5, 8/15] := by
      norm_num [specGradStep, List.range_succ, Finset.sum_range_succ]
    rw [hspec]
    norm_num [run, loopE, gdStepE, gdStep, gradients, dimsOk, matVec, transpose, col, dot,
      vSub, sMul, List.range_succ]

theorem claim_C1_gradient_step_witness :
    dimsOk [[1,0],[1,1],[1,2]] [1,2,3] [0,0] = true ∧
    run [[1,0],[1,1],[1,2]] [1,2,3] [0,0] (1/10) 1 =
      .ok (specGradStep [[1,0],[1,1],[1,2]] [1,2,3] [0,0] (1/10), [[0,0]]) :=
  ⟨by decide,
    (claim_C1_gradient_step (by decide) (by simp)
      (by norm_num [run, loopE, gdStepE, gdStep, gradients, dimsOk, matVec, transpose, col,
            dot, vSub, sMul, List.range_succ] :
        run [[1,0],[1,1],[1,2]] [1,2,3] [0,0] (1/10) 1 =
          .ok ([2/5, 8/15], [[0,0]]))).2⟩

/-- C2: trajectory entry k is θ_k as it was before the update of iteration
k (so entry 0 is theta0), and the returned parameters are one gradient step
ahead of the last snapshot. -/
theorem claim_C2_trajectory_offset {X : List (List ℚ)} {y θ0 : List ℚ} {γ : ℚ} {n : ℤ}
    {tf : List ℚ} {tr : List (List ℚ)}
    (h : dimsOk X y θ0 = true) (hn : 1 ≤ n)
    (hrun : run X y θ0 γ n = .ok (tf, tr)) :
    tr.getD 0 [] = θ0 ∧
    (∀ k : Nat, k < tr.length → tr.getD k [] = thetaIter X y γ θ0 k) ∧
    tf = gdStep X y γ (tr.getD (tr.length - 1) []) := by
  obtain ⟨htf, htr⟩ := run_ok_dest h hrun
  subst htf
  subst htr
  have hpos : 1 ≤ n.toNat := by omega
  refine ⟨?_, ?_, ?_⟩
  · rw [getD_map_range _ (by omega), thetaIter_zero]
  · intro k hk
    have hk' : k < n.toNat := by simpa using hk
    rw [getD_map_range _ hk']
  · obtain ⟨m, hm⟩ : ∃ m, n.toNat = m + 1 := ⟨n.toNat - 1, by omega⟩
    rw [hm]
    simp only [List.length_map, List.length_range, Nat.add_sub_cancel]
    rw [getD_map_range _ (by omega), thetaIter_succ]

theorem claim_C2_trajectory_offset_witness :
    ([[(0:ℚ),0]].getD 0 [] = [0,0]) ∧
    ([2/5, 8/15] : List ℚ) =
      gdStep [[1,0],[1,1],[1,2]] [1,2,3] (1/10) ([[(0:ℚ),0]].getD 0 []) := by
  have h := claim_C2_trajectory_offset (by decide) (by decide)
    (by norm_num [run, loopE, gdStepE, gdStep, gradients, dimsOk, matVec, transpose, col,
          dot, vSub, sMul, List.range_succ] :
      run [[1,0],[1,1],[1,2]] [1,2,3] [0,0] (1/10) 1 = .ok ([2/5, 8/15], [[0,0]]))
  exact ⟨h.1, h.2.2⟩

/-- C3: on shape-compatible inputs with at least one sample and a
nonnegative iteration count, `run` succeeds with exactly `n_iterations`
trajectory snapshots and a final parameter vector of length p. -/
theorem claim_C3_shapes {X : List (List ℚ)} {y θ0 : List ℚ} {γ : ℚ} {n : ℤ}
    (h : dimsOk X y θ0 = true) (hX : X ≠ []) (hn : 0 ≤ n) :
    ∃ tf tr, run X y θ0 γ n = .ok (tf, tr) ∧
      tr.length = n.toNat ∧ tf.length = θ0.length := by
  exact ⟨_, _, run_eq_iter h hn, by simp, length_thetaIter γ h hX n.toNat⟩

theorem claim_C3_shapes_witness :
    ∃ tf tr, run [[1,0],[1,1],[1,2]] [1,2,3] [0,0] (1/10) 5 = .ok (tf, tr) ∧
      tr.length = (5 : ℤ).toNat ∧ tf.length = ([0, 0] : List ℚ).length :=
  claim_C3_shapes (by decide) (by simp) (by decide)

/-- C4: with `n_iterations = 0` the loop body never runs, so `run` returns
theta0 unchanged and an empty trajectory. -/
theorem claim_C4_zero_iterations (X : List (List ℚ)) (y θ0 : List ℚ) (γ : ℚ) :
    run X y θ0 γ 0 = .ok (θ0, []) := run_zero X y θ0 γ

/-- C5 counterexample: a call whose column count (3) differs from the
length of theta0 (2) that does NOT fail: with `n_iterations = 0` no product
is ever evaluated, the call succeeds, and no `DimensionMismatch` is raised
before iteration — refuting the claim that every mismatched call fails
eagerly. -/
theorem claim_C5_counterexample :
    (([[1,2,3],[1,2,3],[1,2,3],[1,2,3],[1,2,3],[1,2,3],[1,2,3],[1,2,3],[1,2,3],[1,2,3]] :
        List (List ℚ)).headD []).length ≠ ([0,0] : List ℚ).length ∧
    run [[1,2,3],[1,2,3],[1,2,3],[1,2,3],[1,2,3],[1,2,3],[1,2,3],[1,2,3],[1,2,3],[1,2,3]]
        [1,2,3,4,5,6,7,8,9,10] [0,0] (1/10) 0 =
      .ok ([0,0], []) :=
  ⟨by decide, run_zero _ _ _ _⟩

/-- C5 amended: `run` performs no eager dimension validation.  A
dimension-mismatched call completes successfully whenever `n_iterations = 0`
(nothing is evaluated), and also for `n_iterations ≥ 1` whenever numpy
broadcasting applies (every row matches theta0 in length and `y` has a
single entry); only in the remaining cases does it fail, with the dimension
error raised inside the first iteration rather than before any
computation. -/
theorem claim_C5_amended {X : List (List ℚ)} {y θ0 : List ℚ} {γ : ℚ} {n : ℤ}
    (h : dimsOk X y θ0 = false) (hn : 1 ≤ n) :
    run X y θ0 γ 0 = .ok (θ0, []) ∧
    (broadcasts X y θ0 = true → ∃ tf tr, run X y θ0 γ n = .ok (tf, tr)) ∧
    (broadcasts X y θ0 = false → run X y θ0 γ n = .error .dimensionMismatch) := by
  refine ⟨run_zero X y θ0 γ, ?_, ?_⟩
  · intro hb
    rw [broadcasts, Bool.and_eq_true] at hb
    have hrows : (X.all fun row => row.length == θ0.length) = true := hb.1
    have hy : y.length = 1 := by simpa using hb.2
    rw [run, if_neg (by omega)]
    exact loopE_broadcast_ok γ n.toNat θ0 hrows hy
  · intro hb
    obtain ⟨m, hm⟩ : ∃ m, n.toNat = m + 1 := ⟨n.toNat - 1, by omega⟩
    rw [run, if_neg (by omega), hm, loopE_mismatch γ m h hb]

theorem claim_C5_amended_witness :
    run [[1,2,3]] [1] [0,0] (1/10) 0 = .ok ([0,0], []) ∧
    run [[1,2,3]] [1] [0,0] (1/10) 1 = .error .dimensionMismatch ∧
    (∃ tf tr, run [[1],[1]] [5] [0] (1/10) 1 = .ok (tf, tr)) :=
  ⟨(claim_C5_amended (by decide : dimsOk [[1,2,3]] [1] [0,0] = false)
      (by decide : (1:ℤ) ≤ 1)).1,
   (claim_C5_amended (by decide : dimsOk [[1,2,3]] [1] [0,0] = false)
      (by decide : (1:ℤ) ≤ 1)).2.2 (by decide),
   (claim_C5_amended (by decide : dimsOk [[1],[1]] [5] [0] = false)
      (by decide : (1:ℤ) ≤ 1)).2.1 (by decide)⟩

/-- C6: a negative iteration count makes `run` fail with `InvalidArgument`
(the trajectory preallocation `np.ones((2, n_iterations))` rejects a
negative dimension before the loop starts) rather than silently performing
zero iterations. -/
theorem claim_C6_negative_iterations (X : List (List ℚ)) (y θ0 : List ℚ) (γ : ℚ)
    {n : ℤ} (hn : n < 0) :
    run X y θ0 γ n = .error .invalidArgument := by
  rw [run, if_pos hn]

theorem claim_C6_negative_iterations_witness :
    run [[1,0],[1,1],[1,2]] [1,2,3] [0,0] (1/10) (-5) = .error .invalidArgument :=
  claim_C6_negative_iterations _ _ _ _ (by decide)

/-- C7: for a nonempty, shape-compatible least-squares problem and any step
size with 0 ≤ γ and γ·‖X‖_F² ≤ N (every sufficiently small positive γ
satisfies this), the mean-squared error of the trajectory iterates is
non-increasing in k — at every k, hence in particular near the optimum. -/
theorem claim_C7_mse_monotone {X : List (List ℚ)} {y θ0 : List ℚ} {γ : ℚ} {n : ℤ}
    {tf : List ℚ} {tr : List (List ℚ)}
    (h : dimsOk X y θ0 = true) (hX : X ≠ []) (hγ0 : 0 ≤ γ)
    (hγ : γ * frobSq X ≤ (X.length : ℚ))
    (hrun : run X y θ0 γ n = .ok (tf, tr)) :
    ∀ k : Nat, k + 1 < tr.length →
      mse X y (tr.getD (k + 1) []) ≤ mse X y (tr.getD k []) := by
  obtain ⟨htf, htr⟩ := run_ok_dest h hrun
  subst htr
  intro k hk
  have hlen : k + 1 < n.toNat := by simpa using hk
  rw [getD_map_range _ hlen, getD_map_range _ (by omega), thetaIter_succ]
  exact mse_gdStep_le (dimsOk_thetaIter γ h k) hX hγ0 hγ

theorem claim_C7_mse_monotone_witness :
    mse [[1]] [1] [2] ≤ mse [[1]] [1] [0] := by
  have h := claim_C7_mse_monotone (by decide) (by simp) (by norm_num)
    (by norm_num [frobSq])
    (by norm_num [run, loopE, gdStepE, gdStep, gradients, dimsOk, matVec, transpose, col,
          dot, vSub, sMul, List.range_succ] :
      run [[1]] [1] [0] 1 2 = .ok ([0], [[0],[2]]))
    0 (by norm_num)
  exact h

/-- C8: `run` is deterministic — two calls with identical design matrix,
targets, initial parameters, step size and iteration count return identical
results; the embedding has no other input. -/
theorem claim_C8_deterministic
    {X1 X2 : List (List ℚ)} {y1 y2 θ1 θ2 : List ℚ} {γ1 γ2 : ℚ} {n1 n2 : ℤ}
    (hX : X1 = X2) (hy : y1 = y2) (hθ : θ1 = θ2) (hγ : γ1 = γ2) (hn : n1 = n2) :
    run X1 y1 θ1 γ1 n1 = run X2 y2 θ2 γ2 n2 := by
  subst hX
  subst hy
  subst hθ
  subst hγ
  subst hn
  rfl

theorem claim_C8_deterministic_witness :
    run [[1,0],[1,1],[1,2]] [1,2,3] [0,0] (1/10) 7 =
      run [[1,0],[1,1],[1,2]] [1,2,3] [0,0] (1/10) 7 :=
  claim_C8_deterministic rfl rfl rfl rfl rfl

/-- C9: the loop body never mutates the design matrix or the target
vector: after any number of iterations of the notebook body, the `Xb` and
`y` fields of the state equal their initial values. -/
theorem claim_C9_no_mutation (γ : ℚ) (n : Nat) (s : GDState) :
    ((iterBody γ)^[n] s).Xb = s.Xb ∧ ((iterBody γ)^[n] s).y = s.y := by
  induction n with
  | zero => exact ⟨rfl, rfl⟩
  | succ n ih =>
      rw [Function.iterate_succ_apply']
      exact ih

/-- C10: `run` checks nothing about `gamma` — on shape-compatible inputs it
completes for every step size — and with γ = 0 every trajectory snapshot
and the final parameters equal theta0. -/
theorem claim_C10_zero_gamma {X : List (List ℚ)} {y θ0 : List ℚ} {n : ℤ}
    (h : dimsOk X y θ0 = true) (hX : X ≠ []) (hn : 0 ≤ n) :
    (∀ γ : ℚ, ∃ tf tr, run X y θ0 γ n = .ok (tf, tr)) ∧
    run X y θ0 0 n = .ok (θ0, List.replicate n.toNat θ0) := by
  constructor
  · intro γ
    exact ⟨_, _, run_eq_iter h hn⟩
  · rw [run_eq_iter h hn, thetaIter_zero_gamma h hX,
      map_range_eq_replicate n.toNat fun k _ => thetaIter_zero_gamma h hX k]

theorem claim_C10_zero_gamma_witness :
    run [[1,0],[1,1],[1,2]] [1,2,3] [0,0] 0 3 =
      .ok ([0,0], List.replicate (3:ℤ).toNat [0,0]) :=
  (claim_C10_zero_gamma (by decide) (by simp) (by decide)).2

end GradientDescent
